import Mathlib

/-!
Verification of the GFF3 record model, reader and writer (src/io/gff.rs).

The record model, the field decoding rules (score, strand, attributes), the
per-line decoder and the line writer are embedded as executable Lean
functions.  The external tabular codec (the csv collaborator configured with
a delimiter and a record terminator) is modelled from the spec as plain
split/join on the delimiter character; Rust's `u64::from_str` is modelled by
`parseU64` below (optional leading '+', ASCII digits only, overflow is a
parse failure).
-/

namespace Gff

/-- Numeric value of an ASCII digit character. -/
def charVal (c : Char) : Nat := c.toNat - 48

/-- ASCII digit character for a value below ten. -/
def digitChar (d : Nat) : Char := Char.ofNat (48 + d)

/-- Declarative value of a digit string, via Mathlib's little-endian
`Nat.ofDigits` applied to the reversed digit list. -/
def decimalValue (ds : List Char) : Nat :=
  Nat.ofDigits 10 ((ds.map charVal).reverse)

/-- One step of Rust's `u64::from_str` loop: reject a non-digit, multiply the
accumulator by ten and add the digit, failing on overflow past `2 ^ 64 - 1`. -/
def stepChecked (a : Option Nat) (c : Char) : Option Nat :=
  match a with
  | none => none
  | some n =>
    if c.isDigit then
      if n * 10 + charVal c < 2 ^ 64 then some (n * 10 + charVal c) else none
    else none

/-- Unchecked accumulator value of a digit list starting from `a`. -/
def uncheckedVal (a : Nat) (ds : List Char) : Nat :=
  List.foldl (fun x c => x * 10 + charVal c) a ds

/-- Digit-run part of `u64::from_str`: at least one character, every
character a digit, no overflow. -/
def parseU64core (ds : List Char) : Option Nat :=
  match ds with
  | [] => none
  | _ :: _ => List.foldl stepChecked (some 0) ds

/-- Rust's `u64::from_str` as used by the csv decoder on the start and end
columns and by `Record::score`: an optional leading '+', then a nonempty run
of ASCII digits whose value fits in 64 bits. -/
def parseU64 (s : String) : Option Nat :=
  match s.data with
  | [] => none
  | c :: cs => if c = '+' then parseU64core cs else parseU64core (c :: cs)

/-- The string `s` is a textual `u64` representation of `n` (optional
leading '+', nonempty ASCII digits, value below `2 ^ 64`). -/
def reprU64 (s : String) (n : Nat) : Prop :=
  ∃ ds : List Char, (s.data = ds ∨ s.data = '+' :: ds) ∧ ds ≠ [] ∧
    (∀ c ∈ ds, c.isDigit = true) ∧ decimalValue ds = n ∧ n < 2 ^ 64

/-- Fuel-indexed most-significant-first decimal digits of `n` (empty for
zero); the fuel bounds the recursion depth. -/
def toDigitsAux : Nat → Nat → List Char
  | 0, _ => []
  | fuel + 1, n =>
    if n = 0 then [] else toDigitsAux fuel (n / 10) ++ [digitChar (n % 10)]

/-- Canonical decimal rendering of a natural number, as Rust's `Display`
for `u64` produces for the start and end columns. -/
def natToString (n : Nat) : String :=
  if n = 0 then "0" else ⟨toDigitsAux n n⟩

/-- Split a character list on a delimiter: `n` delimiters give `n + 1`
parts, so the empty list gives one empty part. -/
def splitCh (d : Char) : List Char → List (List Char)
  | [] => [[]]
  | c :: cs =>
    match splitCh d cs with
    | [] => [[c]]
    | f :: rest => if c = d then [] :: f :: rest else (c :: f) :: rest

/-- Join parts with a delimiter character between consecutive parts and no
trailing delimiter. -/
def joinCh (d : Char) : List (List Char) → List Char
  | [] => []
  | [p] => p
  | p :: q :: ps => p ++ d :: joinCh d (q :: ps)

/-- Modelled from the spec: the `io::Strand` enumeration (defined outside
this source file) with the two orientations Forward and Reverse. -/
inductive Strand
  | Forward
  | Reverse
deriving DecidableEq

/-- A GFF record: the nine columns, with start and end decoded to numbers,
score and strand retained as raw text, and the attribute map stored as an
association list standing for the source's HashMap (keys unique, the list
order standing for one iteration order). -/
structure Record where
  seqname : String
  source : String
  feature_type : String
  start : Nat
  «end» : Nat
  score : String
  strand : String
  frame : String
  attributes : List (String × String)
deriving DecidableEq

/-- `Record::new`: empty strings, zero coordinates, placeholder score and
strand, empty attribute map. -/
def Record.new : Record :=
  ⟨"", "", "", 0, 0, ".", ".", "", []⟩

/-- `Record::score`: `none` for the placeholder ".", otherwise the result of
the `u64` parse with a failed parse collapsed to `none`. -/
def Record.score? (r : Record) : Option Nat :=
  if r.score = "." then none else parseU64 r.score

/-- `Record::strand`: Forward for "+", Reverse for "-", `none` otherwise. -/
def Record.strand? (r : Record) : Option Strand :=
  if r.strand = "+" then some Strand.Forward
  else if r.strand = "-" then some Strand.Reverse
  else none

/-- `Record::seqname_mut`: writing through the returned mutable reference. -/
def Record.seqname_mut (r : Record) (v : String) : Record := { r with seqname := v }

/-- `Record::source_mut`: writing through the returned mutable reference. -/
def Record.source_mut (r : Record) (v : String) : Record := { r with source := v }

/-- `Record::feature_type_mut`: writing through the returned mutable reference. -/
def Record.feature_type_mut (r : Record) (v : String) : Record := { r with feature_type := v }

/-- `Record::start_mut`: writing through the returned mutable reference. -/
def Record.start_mut (r : Record) (v : Nat) : Record := { r with start := v }

/-- `Record::end_mut`: writing through the returned mutable reference. -/
def Record.end_mut (r : Record) (v : Nat) : Record := { r with «end» := v }

/-- `Record::score_mut`: writing through the returned mutable reference. -/
def Record.score_mut (r : Record) (v : String) : Record := { r with score := v }

/-- `Record::strand_mut`: writing through the returned mutable reference. -/
def Record.strand_mut (r : Record) (v : String) : Record := { r with strand := v }

/-- `Record::attributes_mut`: writing through the returned mutable reference. -/
def Record.attributes_mut (r : Record) (v : List (String × String)) : Record :=
  { r with attributes := v }

/-- HashMap insert modelled on an association list: replace the value at an
existing key in place, append a fresh key at the end. -/
def hmInsert : List (String × String) → String × String → List (String × String)
  | [], kv => [kv]
  | (k, v) :: rest, kv =>
    if k = kv.1 then (k, kv.2) :: rest else (k, v) :: hmInsert rest kv

/-- HashMap lookup on the association-list model. -/
def hmLookup : List (String × String) → String → Option String
  | [], _ => none
  | (k, v) :: rest, q => if k = q then some v else hmLookup rest q

/-- Keys of the association-list map. -/
def hmKeys (m : List (String × String)) : List String := m.map Prod.fst

/-- Value of the last binding of `q` in a pair list, if any. -/
def lastBinding (ps : List (String × String)) (q : String) : Option String :=
  (ps.reverse.find? (fun p => p.1 == q)).map Prod.snd

/-- Textual form `key=value` of one attribute pair, as `Writer::write`
formats it. -/
def encPair (p : String × String) : List Char :=
  p.1.data ++ '=' :: p.2.data

/-- Folding the attribute segments into the map: each segment must split on
'=' into exactly a key and a value (the csv pair decode); any other shape is
a decode error.  Later bindings of a key overwrite earlier ones, as the
HashMap collect does. -/
def foldAttrs : List (String × String) → List (List Char) → Option (List (String × String))
  | m, [] => some m
  | m, seg :: rest =>
    match splitCh '=' seg with
    | [k, v] => foldAttrs (hmInsert m (⟨k⟩, ⟨v⟩)) rest
    | _ => none

/-- Attribute-column decode from `Records::next`: the empty column is the
empty map; otherwise the column is split on ';' into segments and each
segment on '=' into a pair (the nested csv pass, modelled from the spec's
codec description). -/
def parseAttributes (s : String) : Option (List (String × String)) :=
  if s.data = [] then some []
  else foldAttrs [] (splitCh ';' s.data)

/-- Outcome of decoding one line, as seen by the caller of the record
iterator. -/
inductive DecodeResult
  | ok (r : Record)
  | err
  | panicked
deriving DecidableEq

/-- Attribute stage of `Records::next`: a successful attribute decode
completes the record, a failed one hits the source's `unwrap` and panics. -/
def decodeAttrs (f1 f2 f3 : List Char) (st en : Nat) (f6 f7 f8 : List Char)
    (am : Option (List (String × String))) : DecodeResult :=
  match am with
  | some m => DecodeResult.ok ⟨⟨f1⟩, ⟨f2⟩, ⟨f3⟩, st, en, ⟨f6⟩, ⟨f7⟩, ⟨f8⟩, m⟩
  | none => DecodeResult.panicked

/-- Coordinate stage of `Records::next`: a failed `u64` parse of the start
or end column is the per-line decode error returned to the caller. -/
def decodeCoords (f1 f2 f3 : List Char) (o4 o5 : Option Nat)
    (f6 f7 f8 f9 : List Char) : DecodeResult :=
  match o4, o5 with
  | some st, some en =>
    decodeAttrs f1 f2 f3 st en f6 f7 f8 (parseAttributes ⟨f9⟩)
  | _, _ => DecodeResult.err

/-- Field stage of `Records::next`: anything other than exactly nine fields
is the per-line decode error returned to the caller. -/
def decodeFields : List (List Char) → DecodeResult
  | [f1, f2, f3, f4, f5, f6, f7, f8, f9] =>
    decodeCoords f1 f2 f3 (parseU64 ⟨f4⟩) (parseU64 ⟨f5⟩) f6 f7 f8 f9
  | _ => DecodeResult.err

/-- `Records::next` on one input line: split on tab into exactly nine
fields (else a per-line decode error), parse start and end as `u64` (else a
per-line decode error), then decode the attribute column; a failing
attribute decode hits the source's `unwrap` and panics. -/
def decodeLine (line : String) : DecodeResult :=
  decodeFields (splitCh '\t' line.data)

/-- Modelled from the spec: the Reader's lazy record sequence, one decode
outcome per input line (the external codec supplies the line division). -/
def records (lines : List String) : List DecodeResult :=
  lines.map decodeLine

namespace Writer

/-- Attribute-column encode from `Writer::write`: the empty map gives the
empty string, a nonempty map gives the `key=value` pairs joined by ';'. -/
def encodeAttributes (m : List (String × String)) : String :=
  if m = [] then "" else ⟨joinCh ';' (m.map encPair)⟩

/-- `Writer::write` on one record: the nine fields, with start and end
rendered in decimal, score and strand written from their raw stored text and
the attribute map encoded, joined by tabs (the outer codec pass, modelled
from the spec). -/
def write (r : Record) : String :=
  ⟨joinCh '\t' [r.seqname.data, r.source.data, r.feature_type.data,
    (natToString r.start).data, (natToString r.«end»).data,
    r.score.data, r.strand.data, r.frame.data,
    (encodeAttributes r.attributes).data]⟩

end Writer

/-- A field text that cannot disturb the line structure: no tab, no
newline. -/
def cleanField (s : String) : Prop :=
  '\t' ∉ s.data ∧ '\n' ∉ s.data

/-- An attribute key or value that cannot disturb the line or the attribute
column: additionally no ';' and no '='. -/
def attrClean (s : String) : Prop :=
  cleanField s ∧ ';' ∉ s.data ∧ '=' ∉ s.data

instance (s : String) : Decidable (cleanField s) :=
  inferInstanceAs (Decidable ('\t' ∉ s.data ∧ '\n' ∉ s.data))

instance (s : String) : Decidable (attrClean s) :=
  inferInstanceAs (Decidable (cleanField s ∧ ';' ∉ s.data ∧ '=' ∉ s.data))

end Gff

namespace Gff

theorem foldl_stepChecked_none (ds : List Char) :
    List.foldl stepChecked none ds = none := by
  induction ds with
  | nil => rfl
  | cons c cs ih => simpa [stepChecked] using ih

theorem le_uncheckedVal (a : Nat) (ds : List Char) : a ≤ uncheckedVal a ds := by
  induction ds generalizing a with
  | nil => exact Nat.le_refl a
  | cons c cs ih =>
    have h := ih (a * 10 + charVal c)
    simp only [uncheckedVal, List.foldl] at h ⊢
    omega

theorem uncheckedVal_cons (a : Nat) (c : Char) (ds : List Char) :
    uncheckedVal a (c :: ds) = uncheckedVal (a * 10 + charVal c) ds := rfl

theorem decimalValue_concat (l : List Char) (c : Char) :
    decimalValue (l ++ [c]) = 10 * decimalValue l + charVal c := by
  simp only [decimalValue, List.map_append, List.map_cons, List.map_nil,
    List.reverse_append, List.reverse_cons, List.reverse_nil, List.nil_append,
    List.singleton_append, Nat.ofDigits_cons, Nat.cast_id]
  omega

theorem uncheckedVal_eq_decimalValue (ds : List Char) :
    uncheckedVal 0 ds = decimalValue ds := by
  induction ds using List.reverseRecOn with
  | nil => simp [uncheckedVal, decimalValue, Nat.ofDigits_nil]
  | append_singleton l c ih =>
    simp only [uncheckedVal, List.foldl_append, List.foldl] at ih ⊢
    rw [decimalValue_concat, ← ih]
    omega

theorem stepChecked_digit (a : Nat) (c : Char) (hc : c.isDigit = true)
    (hlt : a * 10 + charVal c < 2 ^ 64) :
    stepChecked (some a) c = some (a * 10 + charVal c) := by
  show (if c.isDigit then
      if a * 10 + charVal c < 2 ^ 64 then some (a * 10 + charVal c) else none
    else none) = some (a * 10 + charVal c)
  rw [if_pos hc, if_pos hlt]

theorem stepChecked_nondigit (a : Nat) (c : Char) (hc : ¬ c.isDigit = true) :
    stepChecked (some a) c = none := by
  show (if c.isDigit then
      if a * 10 + charVal c < 2 ^ 64 then some (a * 10 + charVal c) else none
    else none) = none
  rw [if_neg hc]

theorem stepChecked_overflow (a : Nat) (c : Char) (hc : c.isDigit = true)
    (hlt : ¬ a * 10 + charVal c < 2 ^ 64) :
    stepChecked (some a) c = none := by
  show (if c.isDigit then
      if a * 10 + charVal c < 2 ^ 64 then some (a * 10 + charVal c) else none
    else none) = none
  rw [if_pos hc, if_neg hlt]

theorem foldl_stepChecked_complete (ds : List Char) (a : Nat)
    (hd : ∀ c ∈ ds, c.isDigit = true) (hv : uncheckedVal a ds < 2 ^ 64) :
    List.foldl stepChecked (some a) ds = some (uncheckedVal a ds) := by
  induction ds generalizing a with
  | nil => rfl
  | cons c cs ih =>
    have hc : c.isDigit = true := hd c (List.mem_cons_self c cs)
    have hv' : uncheckedVal (a * 10 + charVal c) cs < 2 ^ 64 := by
      rw [← uncheckedVal_cons]; exact hv
    have hlt : a * 10 + charVal c < 2 ^ 64 :=
      Nat.lt_of_le_of_lt (le_uncheckedVal _ cs) hv'
    rw [List.foldl_cons, stepChecked_digit a c hc hlt, uncheckedVal_cons]
    exact ih (a * 10 + charVal c) (fun x hx => hd x (List.mem_cons_of_mem c hx)) hv'

theorem foldl_stepChecked_sound (ds : List Char) (a n : Nat)
    (ha : a < 2 ^ 64) (h : List.foldl stepChecked (some a) ds = some n) :
    (∀ c ∈ ds, c.isDigit = true) ∧ n = uncheckedVal a ds ∧ n < 2 ^ 64 := by
  induction ds generalizing a with
  | nil =>
    simp only [List.foldl_nil, Option.some.injEq] at h
    exact ⟨by simp, h.symm, h ▸ ha⟩
  | cons c cs ih =>
    rw [List.foldl_cons] at h
    by_cases hc : c.isDigit = true
    · by_cases hlt : a * 10 + charVal c < 2 ^ 64
      · rw [stepChecked_digit a c hc hlt] at h
        obtain ⟨h1, h2, h3⟩ := ih (a * 10 + charVal c) hlt h
        refine ⟨?_, by rw [uncheckedVal_cons]; exact h2, h3⟩
        intro x hx
        rcases List.mem_cons.mp hx with hx | hx
        · exact hx ▸ hc
        · exact h1 x hx
      · rw [stepChecked_overflow a c hc hlt, foldl_stepChecked_none] at h
        exact absurd h (by simp)
    · rw [stepChecked_nondigit a c hc, foldl_stepChecked_none] at h
      exact absurd h (by simp)

theorem parseU64_eq_some_iff (s : String) (n : Nat) :
    parseU64 s = some n ↔ reprU64 s n := by
  have hplus : ('+' : Char).isDigit = false := by decide
  have hpow : (0 : Nat) < 2 ^ 64 := by positivity
  cases hs : s.data with
  | nil =>
    simp only [parseU64, hs]
    constructor
    · intro h; exact absurd h (by simp)
    · rintro ⟨ds, hds, hne, -, -, -⟩
      rcases hds with hds | hds
      · exact absurd (hs.symm.trans hds).symm hne
      · rw [hs] at hds; exact absurd hds.symm (by simp)
  | cons c cs =>
    simp only [parseU64, hs]
    by_cases hc : c = '+'
    · rw [if_pos hc]
      cases cs with
      | nil =>
        show (none : Option Nat) = some n ↔ _
        constructor
        · intro h; exact absurd h (by simp)
        · rintro ⟨ds, hds, hne, hdig, -, -⟩
          rcases hds with hds | hds
          · rw [hs, hc] at hds
            have h1 : ('+' : Char).isDigit = true :=
              hdig _ (hds ▸ List.mem_cons_self '+' ([] : List Char))
            rw [hplus] at h1; exact absurd h1 (by simp)
          · rw [hs] at hds
            injection hds with h1 h2
            exact absurd h2.symm hne
      | cons d ds' =>
        show List.foldl stepChecked (some 0) (d :: ds') = some n ↔ _
        constructor
        · intro h
          obtain ⟨h1, h2, h3⟩ := foldl_stepChecked_sound _ _ _ hpow h
          refine ⟨d :: ds', Or.inr ?_, by simp, h1,
            by rw [← uncheckedVal_eq_decimalValue, ← h2], h3⟩
          rw [hs, hc]
        · rintro ⟨ds, hds, hne, hdig, hval, hlt⟩
          rcases hds with hds | hds
          · rw [hs, hc] at hds
            have h1 : ('+' : Char).isDigit = true :=
              hdig _ (hds ▸ List.mem_cons_self '+' (d :: ds'))
            rw [hplus] at h1; exact absurd h1 (by simp)
          · rw [hs, hc] at hds
            injection hds with h1 h2
            rw [← h2] at hdig hval
            rw [foldl_stepChecked_complete _ 0 hdig
              (by rw [uncheckedVal_eq_decimalValue, hval]; exact hlt)]
            rw [uncheckedVal_eq_decimalValue, hval]
    · rw [if_neg hc]
      show List.foldl stepChecked (some 0) (c :: cs) = some n ↔ _
      constructor
      · intro h
        obtain ⟨h1, h2, h3⟩ := foldl_stepChecked_sound _ _ _ hpow h
        exact ⟨c :: cs, Or.inl hs, by simp, h1,
          by rw [← uncheckedVal_eq_decimalValue, ← h2], h3⟩
      · rintro ⟨ds, hds, hne, hdig, hval, hlt⟩
        rcases hds with hds | hds
        · rw [hs] at hds
          rw [← hds] at hdig hval
          rw [foldl_stepChecked_complete _ 0 hdig
            (by rw [uncheckedVal_eq_decimalValue, hval]; exact hlt)]
          rw [uncheckedVal_eq_decimalValue, hval]
        · rw [hs] at hds
          injection hds with h1 h2
          exact absurd h1 hc

theorem charVal_digitChar : ∀ d, d < 10 → charVal (digitChar d) = d := by decide

theorem isDigit_digitChar : ∀ d, d < 10 → (digitChar d).isDigit = true := by decide

theorem toDigitsAux_zero (fuel : Nat) : toDigitsAux fuel 0 = [] := by
  cases fuel <;> simp [toDigitsAux]

theorem toDigitsAux_spec (fuel : Nat) : ∀ n, 0 < n → n ≤ fuel →
    toDigitsAux fuel n ≠ [] ∧ (∀ c ∈ toDigitsAux fuel n, c.isDigit = true) ∧
      decimalValue (toDigitsAux fuel n) = n := by
  induction fuel with
  | zero => intro n hn hle; omega
  | succ fuel ih =>
    intro n hn hle
    have hmod : n % 10 < 10 := Nat.mod_lt n (by omega)
    rw [toDigitsAux, if_neg (by omega)]
    by_cases hq : n / 10 = 0
    · rw [hq, toDigitsAux_zero, List.nil_append]
      have hn10 : n = n % 10 := by omega
      refine ⟨by simp, ?_, ?_⟩
      · intro c hcmem
        rw [List.mem_singleton] at hcmem
        rw [hcmem]
        exact isDigit_digitChar _ hmod
      · show decimalValue ([] ++ [digitChar (n % 10)]) = n
        rw [decimalValue_concat, charVal_digitChar _ hmod]
        simp [decimalValue, Nat.ofDigits_nil]
        omega
    · have hqlt : n / 10 < n := Nat.div_lt_self hn (by omega)
      obtain ⟨ih1, ih2, ih3⟩ := ih (n / 10) (by omega) (by omega)
      refine ⟨by simp, ?_, ?_⟩
      · intro c hcmem
        rcases List.mem_append.mp hcmem with hcmem | hcmem
        · exact ih2 c hcmem
        · rw [List.mem_singleton] at hcmem
          rw [hcmem]
          exact isDigit_digitChar _ hmod
      · rw [decimalValue_concat, ih3, charVal_digitChar _ hmod]
        omega

theorem natToString_spec (n : Nat) :
    (natToString n).data ≠ [] ∧ (∀ c ∈ (natToString n).data, c.isDigit = true) ∧
      decimalValue (natToString n).data = n := by
  by_cases hn : n = 0
  · subst hn
    refine ⟨by decide, by decide, by decide⟩
  · rw [natToString, if_neg hn]
    exact toDigitsAux_spec n n (by omega) (Nat.le_refl n)

theorem parseU64_natToString (n : Nat) (h : n < 2 ^ 64) :
    parseU64 (natToString n) = some n := by
  obtain ⟨h1, h2, h3⟩ := natToString_spec n
  exact (parseU64_eq_some_iff _ n).mpr ⟨(natToString n).data, Or.inl rfl, h1, h2, h3, h⟩

theorem natToString_no_tab (n : Nat) : '\t' ∉ (natToString n).data := by
  intro hmem
  have := (natToString_spec n).2.1 _ hmem
  exact absurd this (by decide)

theorem splitCh_ne_nil (d : Char) (l : List Char) : splitCh d l ≠ [] := by
  induction l with
  | nil => simp [splitCh]
  | cons c cs ih =>
    cases hsp : splitCh d cs with
    | nil => simp [splitCh, hsp]
    | cons f rest => by_cases hc : c = d <;> simp [splitCh, hsp, hc]

theorem joinCh_splitCh (d : Char) (l : List Char) :
    joinCh d (splitCh d l) = l := by
  induction l with
  | nil => rfl
  | cons c cs ih =>
    cases hsp : splitCh d cs with
    | nil => exact absurd hsp (splitCh_ne_nil d cs)
    | cons f rest =>
      rw [hsp] at ih
      by_cases hc : c = d
      · simp only [splitCh, hsp, if_pos hc]
        rw [joinCh, ih, hc]
        rfl
      · simp only [splitCh, hsp, if_neg hc]
        cases rest with
        | nil =>
          rw [joinCh] at ih ⊢
          rw [← ih]
        | cons q qs =>
          rw [joinCh] at ih ⊢
          rw [List.cons_append, ih]

theorem splitCh_single (d : Char) (l : List Char) (h : d ∉ l) :
    splitCh d l = [l] := by
  induction l with
  | nil => rfl
  | cons c cs ih =>
    have hc : c ≠ d := fun hcd => h (hcd ▸ List.mem_cons_self c cs)
    have hcs : d ∉ cs := fun hmem => h (List.mem_cons_of_mem c hmem)
    simp only [splitCh, ih hcs, if_neg hc]

theorem splitCh_append_cons (d : Char) (p t : List Char) (hp : d ∉ p) :
    splitCh d (p ++ d :: t) = p :: splitCh d t := by
  induction p with
  | nil =>
    rw [List.nil_append]
    cases hsp : splitCh d t with
    | nil => exact absurd hsp (splitCh_ne_nil d t)
    | cons f rest => simp [splitCh, hsp]
  | cons c cs ih =>
    have hc : c ≠ d := fun hcd => hp (hcd ▸ List.mem_cons_self c cs)
    have hcs : d ∉ cs := fun hmem => hp (List.mem_cons_of_mem c hmem)
    rw [List.cons_append]
    simp only [splitCh, ih hcs, if_neg hc]

theorem splitCh_joinCh (d : Char) (parts : List (List Char))
    (hne : parts ≠ []) (hclean : ∀ p ∈ parts, d ∉ p) :
    splitCh d (joinCh d parts) = parts := by
  induction parts with
  | nil => exact absurd rfl hne
  | cons p ps ih =>
    cases ps with
    | nil =>
      rw [joinCh]
      exact splitCh_single d p (hclean p (List.mem_cons_self p []))
    | cons q qs =>
      rw [joinCh, splitCh_append_cons d p _ (hclean p (List.mem_cons_self p _)),
        ih (by simp) (fun x hx => hclean x (List.mem_cons_of_mem p hx))]

theorem mem_joinCh (d : Char) (parts : List (List Char)) (c : Char)
    (h : c ∈ joinCh d parts) : c = d ∨ ∃ p ∈ parts, c ∈ p := by
  induction parts with
  | nil => rw [joinCh] at h; exact absurd h (by simp)
  | cons p ps ih =>
    cases ps with
    | nil =>
      rw [joinCh] at h
      exact Or.inr ⟨p, List.mem_cons_self p [], h⟩
    | cons q qs =>
      rw [joinCh] at h
      rcases List.mem_append.mp h with h | h
      · exact Or.inr ⟨p, List.mem_cons_self p _, h⟩
      · rcases List.mem_cons.mp h with h | h
        · exact Or.inl h
        · rcases ih h with h | ⟨x, hx, hcx⟩
          · exact Or.inl h
          · exact Or.inr ⟨x, List.mem_cons_of_mem p hx, hcx⟩

theorem joinCh_concat (d : Char) (l : List (List Char)) (x : List Char)
    (h : l ≠ []) : joinCh d (l ++ [x]) = joinCh d l ++ d :: x := by
  induction l with
  | nil => exact absurd rfl h
  | cons p ps ih =>
    cases ps with
    | nil => rfl
    | cons q qs =>
      have ihh := ih (by simp)
      rw [List.cons_append] at ihh
      rw [List.cons_append, List.cons_append, joinCh, ihh, joinCh]
      simp [List.append_assoc]

theorem mk_data (s : String) : String.mk s.data = s := rfl

theorem hmLookup_hmInsert (m : List (String × String)) (k v q : String) :
    hmLookup (hmInsert m (k, v)) q = if k = q then some v else hmLookup m q := by
  induction m with
  | nil => rfl
  | cons kv0 rest ih =>
    obtain ⟨k0, v0⟩ := kv0
    by_cases h0 : k0 = k
    · subst h0
      rw [hmInsert, if_pos rfl]
      by_cases hq : k0 = q
      · rw [hmLookup, if_pos hq, if_pos hq]
      · rw [hmLookup, if_neg hq, if_neg hq, hmLookup, if_neg hq]
    · rw [hmInsert, if_neg h0]
      by_cases hq : k0 = q
      · have hkq : ¬ k = q := fun hk => h0 (hq ▸ hk ▸ rfl)
        rw [hmLookup, if_pos hq, if_neg hkq, hmLookup, if_pos hq]
      · rw [hmLookup, if_neg hq, ih, hmLookup, if_neg hq]

theorem mem_hmKeys_hmInsert (m : List (String × String)) (k v q : String)
    (h : q ∈ hmKeys (hmInsert m (k, v))) : q = k ∨ q ∈ hmKeys m := by
  induction m with
  | nil =>
    rw [hmInsert] at h
    simp only [hmKeys, List.map_cons, List.map_nil, List.mem_singleton] at h
    exact Or.inl h
  | cons kv0 rest ih =>
    obtain ⟨k0, v0⟩ := kv0
    by_cases h0 : k0 = k
    · rw [hmInsert, if_pos h0] at h
      simp only [hmKeys, List.map_cons, List.mem_cons] at h ⊢
      rcases h with h | h
      · exact Or.inr (Or.inl h)
      · exact Or.inr (Or.inr h)
    · rw [hmInsert, if_neg h0] at h
      simp only [hmKeys, List.map_cons, List.mem_cons] at h ⊢
      rcases h with h | h
      · exact Or.inr (Or.inl h)
      · rcases ih h with h | h
        · exact Or.inl h
        · exact Or.inr (Or.inr h)

theorem hmKeys_nodup_hmInsert (m : List (String × String)) (k v : String)
    (h : (hmKeys m).Nodup) : (hmKeys (hmInsert m (k, v))).Nodup := by
  induction m with
  | nil => simp [hmInsert, hmKeys]
  | cons kv0 rest ih =>
    obtain ⟨k0, v0⟩ := kv0
    simp only [hmKeys, List.map_cons, List.nodup_cons] at h
    by_cases h0 : k0 = k
    · rw [hmInsert, if_pos h0]
      simp only [hmKeys, List.map_cons, List.nodup_cons]
      exact h
    · rw [hmInsert, if_neg h0]
      simp only [hmKeys, List.map_cons, List.nodup_cons]
      refine ⟨fun hmem => ?_, ih h.2⟩
      rcases mem_hmKeys_hmInsert rest k v k0 hmem with heq | hmem'
      · exact h0 heq
      · exact h.1 hmem'

theorem hmInsert_fresh (m : List (String × String)) (k v : String)
    (h : k ∉ hmKeys m) : hmInsert m (k, v) = m ++ [(k, v)] := by
  induction m with
  | nil => rfl
  | cons kv0 rest ih =>
    obtain ⟨k0, v0⟩ := kv0
    simp only [hmKeys, List.map_cons, List.mem_cons] at h
    push_neg at h
    rw [hmInsert, if_neg (fun he => h.1 he.symm), ih h.2, List.cons_append]

theorem foldl_hmInsert_of_nodup (ps : List (String × String)) :
    ∀ m : List (String × String), (hmKeys m ++ hmKeys ps).Nodup →
      List.foldl hmInsert m ps = m ++ ps := by
  induction ps with
  | nil => intro m _; rw [List.foldl_nil, List.append_nil]
  | cons p ps ih =>
    intro m hnd
    obtain ⟨k, v⟩ := p
    have hkeys : hmKeys m ++ hmKeys ((k, v) :: ps) =
        hmKeys m ++ k :: hmKeys ps := rfl
    rw [hkeys] at hnd
    have hfresh : k ∉ hmKeys m := by
      rcases List.nodup_append.mp hnd with ⟨-, -, hdisj⟩
      intro hmem
      exact hdisj hmem (List.mem_cons_self k _)
    rw [List.foldl_cons, hmInsert_fresh m k v hfresh, ih (m ++ [(k, v)]) ?h1]
    · rw [List.append_assoc, List.singleton_append]
    · have : hmKeys (m ++ [(k, v)]) = hmKeys m ++ [k] := by
        simp [hmKeys]
      rw [this, List.append_assoc, List.singleton_append]
      exact hnd

theorem hmKeys_foldl_nodup (ps : List (String × String)) :
    ∀ m : List (String × String), (hmKeys m).Nodup →
      (hmKeys (List.foldl hmInsert m ps)).Nodup := by
  induction ps with
  | nil => intro m h; exact h
  | cons p ps ih =>
    intro m h
    obtain ⟨k, v⟩ := p
    rw [List.foldl_cons]
    exact ih _ (hmKeys_nodup_hmInsert m k v h)

theorem mem_hmKeys_of_lookup (m : List (String × String)) (q v : String)
    (h : hmLookup m q = some v) : q ∈ hmKeys m := by
  induction m with
  | nil => exact absurd h (by simp [hmLookup])
  | cons kv0 rest ih =>
    obtain ⟨k0, v0⟩ := kv0
    by_cases hq : k0 = q
    · simp [hmKeys, hq]
    · rw [hmLookup, if_neg hq] at h
      simp only [hmKeys, List.map_cons, List.mem_cons]
      exact Or.inr (ih h)

theorem hmLookup_foldl (ps : List (String × String)) (m0 : List (String × String))
    (q : String) :
    hmLookup (List.foldl hmInsert m0 ps) q =
      match lastBinding ps q with
      | some v => some v
      | none => hmLookup m0 q := by
  induction ps using List.reverseRecOn generalizing m0 with
  | nil => rfl
  | append_singleton ps p ih =>
    obtain ⟨k, v⟩ := p
    rw [List.foldl_append, List.foldl_cons, List.foldl_nil]
    rw [hmLookup_hmInsert]
    by_cases hk : k = q
    · rw [if_pos hk]
      have : lastBinding (ps ++ [(k, v)]) q = some v := by
        rw [lastBinding, List.reverse_append]
        simp only [List.reverse_cons, List.reverse_nil, List.nil_append,
          List.singleton_append]
        rw [List.find?_cons_of_pos _ (by simpa using hk)]
        rfl
      rw [this]
    · rw [if_neg hk, ih m0]
      have : lastBinding (ps ++ [(k, v)]) q = lastBinding ps q := by
        rw [lastBinding, lastBinding, List.reverse_append]
        simp only [List.reverse_cons, List.reverse_nil, List.nil_append,
          List.singleton_append]
        rw [List.find?_cons_of_neg _ (by simpa using hk)]
      rw [this]

theorem count_eq_one_of_nodup_mem (l : List String) (a : String)
    (hnd : l.Nodup) (hmem : a ∈ l) : l.count a = 1 := by
  induction l with
  | nil => exact absurd hmem (by simp)
  | cons b l ih =>
    rw [List.nodup_cons] at hnd
    rcases List.mem_cons.mp hmem with h | h
    · subst h
      rw [List.count_cons_self, List.count_eq_zero_of_not_mem hnd.1]
    · have hne : a ≠ b := fun he => hnd.1 (he ▸ h)
      rw [List.count_cons_of_ne hne, ih hnd.2 h]

theorem mem_encPair (p : String × String) (c : Char) (h : c ∈ encPair p) :
    c ∈ p.1.data ∨ c = '=' ∨ c ∈ p.2.data := by
  rw [encPair] at h
  rcases List.mem_append.mp h with h | h
  · exact Or.inl h
  · rcases List.mem_cons.mp h with h | h
    · exact Or.inr (Or.inl h)
    · exact Or.inr (Or.inr h)

theorem encPair_ne_nil (p : String × String) : encPair p ≠ [] := by
  rw [encPair]
  intro h
  rcases List.append_eq_nil.mp h with ⟨-, h2⟩
  exact absurd h2 (by simp)

theorem splitCh_encPair (p : String × String)
    (h1 : '=' ∉ p.1.data) (h2 : '=' ∉ p.2.data) :
    splitCh '=' (encPair p) = [p.1.data, p.2.data] := by
  rw [encPair, splitCh_append_cons '=' _ _ h1, splitCh_single '=' _ h2]

theorem foldAttrs_encode (ps : List (String × String)) :
    ∀ m : List (String × String),
      (∀ p ∈ ps, '=' ∉ p.1.data ∧ '=' ∉ p.2.data) →
      foldAttrs m (ps.map encPair) = some (List.foldl hmInsert m ps) := by
  induction ps with
  | nil => intro m _; rfl
  | cons p ps ih =>
    intro m hcl
    obtain ⟨hck, hcv⟩ := hcl p (List.mem_cons_self p ps)
    rw [List.map_cons, foldAttrs, splitCh_encPair p hck hcv]
    simp only [mk_data]
    rw [ih (hmInsert m p) (fun x hx => hcl x (List.mem_cons_of_mem p hx)),
      List.foldl_cons]

theorem joinCh_ne_nil (d : Char) (p : List Char) (rest : List (List Char))
    (hp : p ≠ []) : joinCh d (p :: rest) ≠ [] := by
  cases rest with
  | nil => exact hp
  | cons q qs =>
    rw [joinCh]
    intro h
    rcases List.append_eq_nil.mp h with ⟨-, h2⟩
    exact absurd h2 (by simp)

theorem parseAttributes_encode (ps : List (String × String))
    (hne : ps ≠ [])
    (hcl : ∀ p ∈ ps, (';' ∉ p.1.data ∧ '=' ∉ p.1.data) ∧
      (';' ∉ p.2.data ∧ '=' ∉ p.2.data)) :
    parseAttributes ⟨joinCh ';' (ps.map encPair)⟩ =
      some (List.foldl hmInsert [] ps) := by
  have hsemi : ∀ q ∈ ps.map encPair, ';' ∉ q := by
    intro q hq
    rcases List.mem_map.mp hq with ⟨p, hp, hpq⟩
    intro hmem
    rw [← hpq] at hmem
    rcases mem_encPair p ';' hmem with h | h | h
    · exact (hcl p hp).1.1 h
    · exact absurd h (by decide)
    · exact (hcl p hp).2.1 h
  obtain ⟨p0, ps0, rfl⟩ := List.exists_cons_of_ne_nil hne
  have hjoin_ne : joinCh ';' ((p0 :: ps0).map encPair) ≠ [] := by
    rw [List.map_cons]
    exact joinCh_ne_nil ';' _ _ (encPair_ne_nil p0)
  rw [parseAttributes]
  simp only [mk_data]
  rw [if_neg (by simpa using hjoin_ne)]
  rw [splitCh_joinCh ';' _ (by simp) hsemi]
  exact foldAttrs_encode _ [] (fun p hp => ⟨((hcl p hp).1).2, ((hcl p hp).2).2⟩)

theorem foldAttrs_bad (segs : List (List Char)) :
    ∀ m : List (String × String),
      (∃ seg ∈ segs, (splitCh '=' seg).length ≠ 2) →
      foldAttrs m segs = none := by
  induction segs with
  | nil => rintro m ⟨seg, hmem, -⟩; exact absurd hmem (by simp)
  | cons s0 rest ih =>
    rintro m ⟨seg, hmem, hbad⟩
    rcases List.mem_cons.mp hmem with hm | hm
    · subst hm
      rcases hsp : splitCh '=' seg with - | ⟨k, - | ⟨v, - | ⟨w, t⟩⟩⟩
      · exact absurd hsp (splitCh_ne_nil '=' seg)
      · simp only [foldAttrs, hsp]
      · rw [hsp] at hbad; simp at hbad
      · simp only [foldAttrs, hsp]
    · rcases hsp : splitCh '=' s0 with - | ⟨k, - | ⟨v, - | ⟨w, t⟩⟩⟩
      · exact absurd hsp (splitCh_ne_nil '=' s0)
      · simp only [foldAttrs, hsp]
      · simp only [foldAttrs, hsp]
        exact ih _ ⟨seg, hm, hbad⟩
      · simp only [foldAttrs, hsp]

theorem parseAttributes_bad (s : String) (seg : List Char)
    (hne : s.data ≠ []) (hmem : seg ∈ splitCh ';' s.data)
    (hbad : (splitCh '=' seg).length ≠ 2) :
    parseAttributes s = none := by
  rw [parseAttributes, if_neg hne]
  exact foldAttrs_bad _ [] ⟨seg, hmem, hbad⟩

theorem data_append (a b : String) : (a ++ b).data = a.data ++ b.data := by
  cases a; cases b; rfl

theorem string_eq_of_data {a b : String} (h : a.data = b.data) : a = b := by
  cases a; cases b; cases h; rfl

theorem parseAttributes_encodeAttributes (m : List (String × String))
    (hcl : ∀ p ∈ m, attrClean p.1 ∧ attrClean p.2)
    (hnd : (hmKeys m).Nodup) :
    parseAttributes (Writer.encodeAttributes m) = some m := by
  cases hm : m with
  | nil => decide
  | cons p ps =>
    rw [Writer.encodeAttributes, if_neg (by simp)]
    rw [parseAttributes_encode (p :: ps) (by simp) ?hc]
    case hc =>
      intro x hx
      have h := hcl x (hm ▸ hx)
      exact ⟨⟨h.1.2.1, h.1.2.2⟩, ⟨h.2.2.1, h.2.2.2⟩⟩
    rw [foldl_hmInsert_of_nodup (p :: ps) [] ?hn]
    case hn =>
      have hkeys : hmKeys ([] : List (String × String)) ++ hmKeys (p :: ps) =
          hmKeys (p :: ps) := by simp [hmKeys]
      rw [hkeys]
      exact hm ▸ hnd
    rw [List.nil_append]

theorem tab_notin_encodeAttributes (m : List (String × String))
    (hcl : ∀ p ∈ m, attrClean p.1 ∧ attrClean p.2) :
    '\t' ∉ (Writer.encodeAttributes m).data := by
  cases m with
  | nil => decide
  | cons p ps =>
    rw [Writer.encodeAttributes, if_neg (by simp)]
    intro hmem
    rcases mem_joinCh ';' _ '\t' hmem with h | ⟨q, hq, hcq⟩
    · exact absurd h (by decide)
    · rcases List.mem_map.mp hq with ⟨x, hx, hxq⟩
      rw [← hxq] at hcq
      rcases mem_encPair x '\t' hcq with h | h | h
      · exact (hcl x hx).1.1.1 h
      · exact absurd h (by decide)
      · exact (hcl x hx).2.1.1 h

theorem write_fields (r : Record)
    (h3 : cleanField r.seqname) (h4 : cleanField r.source) (h5 : cleanField r.feature_type)
    (h6 : cleanField r.score) (h7 : cleanField r.strand) (h8 : cleanField r.frame)
    (h9 : ∀ p ∈ r.attributes, attrClean p.1 ∧ attrClean p.2) :
    splitCh '\t' (Writer.write r).data =
      [r.seqname.data, r.source.data, r.feature_type.data,
       (natToString r.start).data, (natToString r.«end»).data,
       r.score.data, r.strand.data, r.frame.data,
       (Writer.encodeAttributes r.attributes).data] := by
  show splitCh '\t' (joinCh '\t' _) = _
  apply splitCh_joinCh
  · simp
  · intro p hp
    simp only [List.mem_cons, List.not_mem_nil, or_false] at hp
    rcases hp with rfl | rfl | rfl | rfl | rfl | rfl | rfl | rfl | rfl
    · exact h3.1
    · exact h4.1
    · exact h5.1
    · exact natToString_no_tab r.start
    · exact natToString_no_tab r.«end»
    · exact h6.1
    · exact h7.1
    · exact h8.1
    · exact tab_notin_encodeAttributes r.attributes h9

theorem decodeFields_nine (f1 f2 f3 f4 f5 f6 f7 f8 f9 : List Char) :
    decodeFields [f1, f2, f3, f4, f5, f6, f7, f8, f9] =
      decodeCoords f1 f2 f3 (parseU64 ⟨f4⟩) (parseU64 ⟨f5⟩) f6 f7 f8 f9 := rfl

theorem decodeCoords_some (f1 f2 f3 : List Char) (st en : Nat)
    (f6 f7 f8 f9 : List Char) :
    decodeCoords f1 f2 f3 (some st) (some en) f6 f7 f8 f9 =
      decodeAttrs f1 f2 f3 st en f6 f7 f8 (parseAttributes ⟨f9⟩) := rfl

theorem decodeCoords_none_left (f1 f2 f3 : List Char) (o5 : Option Nat)
    (f6 f7 f8 f9 : List Char) :
    decodeCoords f1 f2 f3 none o5 f6 f7 f8 f9 = DecodeResult.err := by
  cases o5 <;> rfl

theorem decodeCoords_none_right (f1 f2 f3 : List Char) (st : Nat)
    (f6 f7 f8 f9 : List Char) :
    decodeCoords f1 f2 f3 (some st) none f6 f7 f8 f9 = DecodeResult.err := rfl

theorem decodeAttrs_some (f1 f2 f3 : List Char) (st en : Nat)
    (f6 f7 f8 : List Char) (m : List (String × String)) :
    decodeAttrs f1 f2 f3 st en f6 f7 f8 (some m) =
      DecodeResult.ok ⟨⟨f1⟩, ⟨f2⟩, ⟨f3⟩, st, en, ⟨f6⟩, ⟨f7⟩, ⟨f8⟩, m⟩ := rfl

theorem decodeAttrs_none (f1 f2 f3 : List Char) (st en : Nat)
    (f6 f7 f8 : List Char) :
    decodeAttrs f1 f2 f3 st en f6 f7 f8 none = DecodeResult.panicked := rfl

/-- C1 (amended): for every Record with 64-bit coordinates whose text fields
are free of tab and newline, whose attribute keys and values are additionally
free of ';' and '=', and whose attribute keys are distinct, decoding the line
produced by `Writer::write` yields a Record equal to the original in all nine
semantic fields. -/
theorem write_decode_roundtrip (r : Record)
    (h1 : r.start < 2 ^ 64) (h2 : r.«end» < 2 ^ 64)
    (h3 : cleanField r.seqname) (h4 : cleanField r.source)
    (h5 : cleanField r.feature_type)
    (h6 : cleanField r.score) (h7 : cleanField r.strand) (h8 : cleanField r.frame)
    (h9 : ∀ p ∈ r.attributes, attrClean p.1 ∧ attrClean p.2)
    (h10 : (hmKeys r.attributes).Nodup) :
    decodeLine (Writer.write r) = DecodeResult.ok r := by
  have hfields := write_fields r h3 h4 h5 h6 h7 h8 h9
  rw [decodeLine, hfields, decodeFields_nine]
  simp only [mk_data]
  rw [parseU64_natToString _ h1, parseU64_natToString _ h2, decodeCoords_some]
  simp only [mk_data]
  rw [parseAttributes_encodeAttributes r.attributes h9 h10, decodeAttrs_some]

/-- C1 witness: a concrete record with score text "50", strand text "+" and
one attribute survives the write-decode round trip. -/
theorem write_decode_roundtrip_witness :
    decodeLine (Writer.write
        (Record.mk "P0A7B8" "UniProtKB" "Chain" 2 176 "50" "+" "." [("ID", "PRO_1")])) =
      DecodeResult.ok
        (Record.mk "P0A7B8" "UniProtKB" "Chain" 2 176 "50" "+" "." [("ID", "PRO_1")]) :=
  write_decode_roundtrip _ (by decide) (by decide) (by decide) (by decide)
    (by decide) (by decide) (by decide) (by decide) (by decide) (by decide)

/-- C1 counterexample: the claim as stated quantifies only over the score and
strand raw texts; a record whose score and strand texts follow the textual
convention but whose attribute value contains ';' does not decode back at all
(the re-decode panics on the injected separator). -/
theorem write_decode_roundtrip_cex :
    (Record.mk "s" "src" "gene" 1 2 "." "." "." [("k", "a;b")]).score = "." ∧
    (Record.mk "s" "src" "gene" 1 2 "." "." "." [("k", "a;b")]).strand = "." ∧
    decodeLine (Writer.write
        (Record.mk "s" "src" "gene" 1 2 "." "." "." [("k", "a;b")])) =
      DecodeResult.panicked := by decide

/-- C2 (amended): for every input line that splits into nine fields with
parseable start and end columns, a nonempty attribute segment with no '='
makes the record decode hit the source's `unwrap`: the failure aborts as a
panic instead of being returned to the caller as a result value. -/
theorem attr_error_panics (line : String)
    (f1 f2 f3 f4 f5 f6 f7 f8 f9 : List Char)
    (hsplit : splitCh '\t' line.data = [f1, f2, f3, f4, f5, f6, f7, f8, f9])
    (st en : Nat) (hst : parseU64 ⟨f4⟩ = some st) (hen : parseU64 ⟨f5⟩ = some en)
    (seg : List Char) (hseg : seg ∈ splitCh ';' f9) (hne : seg ≠ [])
    (hnoeq : '=' ∉ seg) :
    decodeLine line = DecodeResult.panicked := by
  have hf9 : f9 ≠ [] := by
    intro h
    subst h
    simp [splitCh] at hseg
    exact hne hseg
  have hbad : (splitCh '=' seg).length ≠ 2 := by
    rw [splitCh_single '=' seg hnoeq]
    simp
  have hattr : parseAttributes ⟨f9⟩ = none :=
    parseAttributes_bad ⟨f9⟩ seg hf9 hseg hbad
  rw [decodeLine, hsplit, decodeFields_nine, hst, hen, decodeCoords_some, hattr,
    decodeAttrs_none]

/-- C2 witness: a concrete line whose attribute column is "foo" reaches the
panic outcome. -/
theorem attr_error_panics_witness :
    decodeLine "a\tb\tc\t1\t2\t.\t.\t.\tfoo" = DecodeResult.panicked :=
  attr_error_panics "a\tb\tc\t1\t2\t.\t.\t.\tfoo"
    ['a'] ['b'] ['c'] ['1'] ['2'] ['.'] ['.'] ['.'] ['f', 'o', 'o']
    (by decide) 1 2 (by decide) (by decide) ['f', 'o', 'o']
    (by decide) (by decide) (by decide)

/-- C2 counterexample: on the concrete line with attribute column "foo" the
decode outcome is the panic, not the per-record error result the claim
asserts. -/
theorem attr_error_not_returned_cex :
    decodeLine "a\tb\tc\t1\t2\t.\t.\t.\tfoo" = DecodeResult.panicked ∧
    DecodeResult.panicked ≠ DecodeResult.err := by decide

/-- C3: the score accessor returns none on the placeholder ".", returns the
parsed unsigned integer on any raw text that is a textual u64, and returns
none (signalling no error) on any raw text that is not. -/
theorem score_decoding (r : Record) :
    (r.score = "." → r.score? = none) ∧
    (∀ n : Nat, reprU64 r.score n → r.score? = some n) ∧
    ((∀ n : Nat, ¬ reprU64 r.score n) → r.score? = none) := by
  refine ⟨fun h => ?_, fun n hr => ?_, fun hnone => ?_⟩
  · rw [Record.score?, if_pos h]
  · have hs : r.score ≠ "." := by
      intro he
      rcases hr with ⟨ds, hds, hne, hdig, -, -⟩
      rw [he] at hds
      rcases hds with hds | hds
      · have hdot : '.' ∈ ds := by
          rw [← hds]
          decide
        have := hdig '.' hdot
        exact absurd this (by decide)
      · have : ['.'] = '+' :: ds := hds
        injection this with h1 h2
        exact absurd h1 (by decide)
    rw [Record.score?, if_neg hs]
    exact (parseU64_eq_some_iff _ n).mpr hr
  · by_cases h : r.score = "."
    · rw [Record.score?, if_pos h]
    · rw [Record.score?, if_neg h]
      cases hp : parseU64 r.score with
      | none => rfl
      | some m => exact absurd ((parseU64_eq_some_iff _ m).mp hp) (hnone m)

/-- C3 witness: a record with raw score text "50" yields `some 50`. -/
theorem score_decoding_witness :
    (Record.mk "a" "b" "c" 1 2 "50" "+" "." []).score? = some 50 :=
  (score_decoding _).2.1 50
    ⟨['5', '0'], Or.inl (by decide), by decide, by decide, by decide, by decide⟩

/-- C4: the strand accessor returns Forward exactly on "+", Reverse exactly
on "-", and none on every other raw value, with no error signalled. -/
theorem strand_decoding (r : Record) :
    (r.strand = "+" → r.strand? = some Strand.Forward) ∧
    (r.strand = "-" → r.strand? = some Strand.Reverse) ∧
    (r.strand ≠ "+" → r.strand ≠ "-" → r.strand? = none) := by
  refine ⟨fun h => ?_, fun h => ?_, fun h1 h2 => ?_⟩
  · rw [Record.strand?, if_pos h]
  · have hne : r.strand ≠ "+" := by rw [h]; decide
    rw [Record.strand?, if_neg hne, if_pos h]
  · rw [Record.strand?, if_neg h1, if_neg h2]

/-- C4 witness: "+" maps to Forward, and the other raw values ".", "?" and
"" (here "?" and "" concretely) map to none. -/
theorem strand_decoding_witness :
    (Record.mk "a" "b" "c" 1 2 "." "+" "." []).strand? = some Strand.Forward ∧
    (Record.mk "a" "b" "c" 1 2 "." "?" "." []).strand? = none ∧
    (Record.mk "a" "b" "c" 1 2 "." "" "." []).strand? = none :=
  ⟨(strand_decoding _).1 rfl,
   (strand_decoding _).2.2 (by decide) (by decide),
   (strand_decoding _).2.2 (by decide) (by decide)⟩

/-- C5: a line that does not split into nine fields, or whose start or end
column fails the unsigned-integer parse, yields the per-line error outcome
(not a panic, not a record with a substituted zero), and the record sequence
simply carries on with the remaining lines. -/
theorem structural_error_reported :
    (∀ line : String, line.data ≠ [] → (splitCh '\t' line.data).length ≠ 9 →
      decodeLine line = DecodeResult.err) ∧
    (∀ (line : String) (f1 f2 f3 f4 f5 f6 f7 f8 f9 : List Char),
      splitCh '\t' line.data = [f1, f2, f3, f4, f5, f6, f7, f8, f9] →
      parseU64 ⟨f4⟩ = none ∨ parseU64 ⟨f5⟩ = none →
      decodeLine line = DecodeResult.err) ∧
    (∀ (l : String) (ls : List String),
      records (l :: ls) = decodeLine l :: records ls) := by
  refine ⟨fun line hne hlen => ?_, fun line f1 f2 f3 f4 f5 f6 f7 f8 f9 hsplit hbad => ?_,
    fun l ls => rfl⟩
  · rw [decodeLine, decodeFields.eq_def]
    split
    · rename_i heq
      rw [heq] at hlen
      simp at hlen
    · rfl
  · rw [decodeLine, hsplit, decodeFields_nine]
    rcases hbad with hbad | hbad
    · rw [hbad, decodeCoords_none_left]
    · cases h4 : parseU64 ⟨f4⟩ with
      | none => rw [decodeCoords_none_left]
      | some st => rw [hbad, decodeCoords_none_right]

/-- C5 witness: a line with a non-numeric start column gives the error
outcome, and so does a line with too few columns. -/
theorem structural_error_reported_witness :
    decodeLine "a\tb\tc\tx\t5\t.\t.\t.\t" = DecodeResult.err ∧
    decodeLine "a\tb" = DecodeResult.err :=
  ⟨structural_error_reported.2.1 "a\tb\tc\tx\t5\t.\t.\t.\t"
      ['a'] ['b'] ['c'] ['x'] ['5'] ['.'] ['.'] ['.'] []
      (by decide) (Or.inl (by decide)),
   structural_error_reported.1 "a\tb" (by decide) (by decide)⟩

theorem data_mk (l : List Char) : (String.mk l).data = l := rfl

/-- C6: the writer serializes a non-empty attribute map as `key=value`
pairs joined by ';' with the separator only between pairs (never trailing),
and an empty map as the empty string; the singleton map ID to PRO_1
serializes as "ID=PRO_1". -/
theorem attributes_encoding :
    Writer.encodeAttributes [] = "" ∧
    (∀ p : String × String, Writer.encodeAttributes [p] = p.1 ++ "=" ++ p.2) ∧
    (∀ (m : List (String × String)) (p : String × String), m ≠ [] →
      Writer.encodeAttributes (m ++ [p]) =
        Writer.encodeAttributes m ++ ";" ++ p.1 ++ "=" ++ p.2) ∧
    Writer.encodeAttributes [("ID", "PRO_1")] = "ID=PRO_1" := by
  refine ⟨rfl, fun p => ?_, fun m p hm => ?_, by decide⟩
  · apply string_eq_of_data
    have h1 : (Writer.encodeAttributes [p]).data = p.1.data ++ '=' :: p.2.data := by
      rw [Writer.encodeAttributes, if_neg (by simp)]
      rfl
    have h2 : (p.1 ++ "=" ++ p.2).data = p.1.data ++ '=' :: p.2.data := by
      rw [data_append, data_append]
      rw [List.append_assoc]
      rfl
    rw [h1, h2]
  · apply string_eq_of_data
    have hmne : m ++ [p] ≠ [] := by simp
    have hmapne : m.map encPair ≠ [] := by
      simpa using hm
    have h1 : (Writer.encodeAttributes (m ++ [p])).data =
        joinCh ';' (m.map encPair) ++ ';' :: encPair p := by
      rw [Writer.encodeAttributes, if_neg hmne, data_mk, List.map_append]
      rw [show (List.map encPair [p]) = [encPair p] from rfl]
      rw [joinCh_concat ';' (m.map encPair) (encPair p) hmapne]
    have h2 : (Writer.encodeAttributes m ++ ";" ++ p.1 ++ "=" ++ p.2).data =
        joinCh ';' (m.map encPair) ++ ';' :: encPair p := by
      rw [data_append, data_append, data_append, data_append]
      rw [Writer.encodeAttributes, if_neg hm, data_mk]
      rw [encPair, List.append_assoc, List.append_assoc, List.append_assoc]
      rfl
    rw [h1, h2]

/-- C6 witness: appending the pair ("c", "d") to the nonempty map
[("a", "b")] inserts exactly one ';' between the serialized pairs. -/
theorem attributes_encoding_witness :
    Writer.encodeAttributes ([("a", "b")] ++ [("c", "d")]) =
      Writer.encodeAttributes [("a", "b")] ++ ";" ++ "c" ++ "=" ++ "d" :=
  attributes_encoding.2.2.1 [("a", "b")] ("c", "d") (by decide)

/-- C7 (amended): a nine-field line with an empty attributes column whose
start and end columns are the canonical decimal numerals of their values
decodes to a record that re-encodes byte-for-byte to the original line; the
counterexample shows the canonicity condition is needed. -/
theorem decode_write_roundtrip (line : String) (a b c d e f g h : List Char)
    (st en : Nat)
    (hsplit : splitCh '\t' line.data = [a, b, c, d, e, f, g, h, []])
    (hdc : d = (natToString st).data) (hec : e = (natToString en).data)
    (hst : st < 2 ^ 64) (hen : en < 2 ^ 64) :
    decodeLine line = DecodeResult.ok (Record.mk ⟨a⟩ ⟨b⟩ ⟨c⟩ st en ⟨f⟩ ⟨g⟩ ⟨h⟩ []) ∧
    Writer.write (Record.mk ⟨a⟩ ⟨b⟩ ⟨c⟩ st en ⟨f⟩ ⟨g⟩ ⟨h⟩ []) = line := by
  subst hdc hec
  constructor
  · rw [decodeLine, hsplit, decodeFields_nine]
    simp only [mk_data]
    rw [parseU64_natToString _ hst, parseU64_natToString _ hen, decodeCoords_some]
    rw [show parseAttributes ⟨([] : List Char)⟩ = some [] from rfl, decodeAttrs_some]
  · apply string_eq_of_data
    show joinCh '\t' [a, b, c, (natToString st).data, (natToString en).data,
      f, g, h, []] = line.data
    rw [← hsplit, joinCh_splitCh]

/-- C7 witness: the concrete empty-attribute line with canonical start and
end columns survives the decode-encode round trip byte-for-byte. -/
theorem decode_write_roundtrip_witness :
    decodeLine "a\tb\tc\t7\t5\t.\t.\t.\t" =
      DecodeResult.ok (Record.mk "a" "b" "c" 7 5 "." "." "." []) ∧
    Writer.write (Record.mk "a" "b" "c" 7 5 "." "." "." []) =
      "a\tb\tc\t7\t5\t.\t.\t.\t" :=
  decode_write_roundtrip "a\tb\tc\t7\t5\t.\t.\t.\t"
    ['a'] ['b'] ['c'] ['7'] ['5'] ['.'] ['.'] ['.'] 7 5
    (by decide) (by decide) (by decide) (by decide) (by decide)

/-- C7 counterexample: the line with start column "007" is well formed and
has an empty attributes column, yet decoding and re-encoding yields the
canonical "7", so the round trip is not byte-for-byte. -/
theorem decode_write_roundtrip_cex :
    decodeLine "a\tb\tc\t007\t5\t.\t.\t.\t" =
      DecodeResult.ok (Record.mk "a" "b" "c" 7 5 "." "." "." []) ∧
    Writer.write (Record.mk "a" "b" "c" 7 5 "." "." "." []) ≠
      "a\tb\tc\t007\t5\t.\t.\t.\t" := by decide

/-- C8 (amended): the record interface exposes a working in-place mutator
for every field except `frame` — including `end_mut`, which the original
claim denied — and none of the exposed mutators changes the stored frame
text. -/
theorem mut_accessors :
    (∀ (r : Record) (v : String),
      (r.seqname_mut v).seqname = v ∧ (r.seqname_mut v).frame = r.frame) ∧
    (∀ (r : Record) (v : String),
      (r.source_mut v).source = v ∧ (r.source_mut v).frame = r.frame) ∧
    (∀ (r : Record) (v : String),
      (r.feature_type_mut v).feature_type = v ∧ (r.feature_type_mut v).frame = r.frame) ∧
    (∀ (r : Record) (v : Nat),
      (r.start_mut v).start = v ∧ (r.start_mut v).frame = r.frame) ∧
    (∀ (r : Record) (v : Nat),
      (r.end_mut v).«end» = v ∧ (r.end_mut v).frame = r.frame) ∧
    (∀ (r : Record) (v : String),
      (r.score_mut v).score = v ∧ (r.score_mut v).frame = r.frame) ∧
    (∀ (r : Record) (v : String),
      (r.strand_mut v).strand = v ∧ (r.strand_mut v).frame = r.frame) ∧
    (∀ (r : Record) (v : List (String × String)),
      (r.attributes_mut v).attributes = v ∧ (r.attributes_mut v).frame = r.frame) :=
  ⟨fun _ _ => ⟨rfl, rfl⟩, fun _ _ => ⟨rfl, rfl⟩, fun _ _ => ⟨rfl, rfl⟩,
   fun _ _ => ⟨rfl, rfl⟩, fun _ _ => ⟨rfl, rfl⟩, fun _ _ => ⟨rfl, rfl⟩,
   fun _ _ => ⟨rfl, rfl⟩, fun _ _ => ⟨rfl, rfl⟩⟩

/-- C8 counterexample: `Record::end_mut` exists (src lines 226-229) and
does mutate the stored end value in place, refuting the claim that no
operation mutates `end`. -/
theorem end_mut_mutates :
    (Record.new.end_mut 7).«end» = 7 ∧ Record.new.«end» = 0 := by decide

/-- C9: an attribute column with duplicate keys decodes without error; the
resulting map holds the duplicated key exactly once, bound to the value of
the last segment with that key. -/
theorem attrs_last_wins (ps : List (String × String)) (k : String)
    (hcl : ∀ p ∈ ps, (';' ∉ p.1.data ∧ '=' ∉ p.1.data) ∧
      (';' ∉ p.2.data ∧ '=' ∉ p.2.data))
    (hdup : 2 ≤ (hmKeys ps).count k) :
    parseAttributes ⟨joinCh ';' (ps.map encPair)⟩ =
      some (List.foldl hmInsert [] ps) ∧
    (hmKeys (List.foldl hmInsert [] ps)).count k = 1 ∧
    hmLookup (List.foldl hmInsert [] ps) k = lastBinding ps k := by
  have hne : ps ≠ [] := by
    intro h
    rw [h] at hdup
    simp [hmKeys] at hdup
  have hk : k ∈ hmKeys ps := by
    by_contra hk
    rw [List.count_eq_zero_of_not_mem hk] at hdup
    omega
  obtain ⟨p, hpmem, hpk⟩ := List.mem_map.mp hk
  have hrev : p ∈ ps.reverse := List.mem_reverse.mpr hpmem
  have hfind : ∃ x ∈ ps.reverse, (fun q => q.1 == k) x = true :=
    ⟨p, hrev, by simp [hpk]⟩
  have hsome : (ps.reverse.find? (fun q => q.1 == k)).isSome :=
    List.find?_isSome.mpr hfind
  obtain ⟨q, hq⟩ := Option.isSome_iff_exists.mp hsome
  have hlb : lastBinding ps k = some q.2 := by
    rw [lastBinding, hq]
    rfl
  have hlook : hmLookup (List.foldl hmInsert [] ps) k = some q.2 := by
    rw [hmLookup_foldl, hlb]
  refine ⟨parseAttributes_encode ps hne hcl, ?_, ?_⟩
  · exact count_eq_one_of_nodup_mem _ _
      (hmKeys_foldl_nodup ps [] (by simp [hmKeys]))
      (mem_hmKeys_of_lookup _ _ _ hlook)
  · rw [hlook, hlb]

/-- C9 witness: the duplicate-key column "a=1;a=2" decodes to the singleton
map binding "a" to "2". -/
theorem attrs_last_wins_witness :
    parseAttributes ⟨joinCh ';' ([("a", "1"), ("a", "2")].map encPair)⟩ =
      some (List.foldl hmInsert [] [("a", "1"), ("a", "2")]) ∧
    (hmKeys (List.foldl hmInsert [] [("a", "1"), ("a", "2")])).count "a" = 1 ∧
    hmLookup (List.foldl hmInsert [] [("a", "1"), ("a", "2")]) "a" =
      lastBinding [("a", "1"), ("a", "2")] "a" :=
  attrs_last_wins [("a", "1"), ("a", "2")] "a" (by decide) (by decide)

/-- C10: a raw score text that is a decimal numeral with value at least
2 ^ 64 makes the score accessor return none — overflow is an ordinary parse
failure, never a wrapped value and never a panic. -/
theorem score_overflow (r : Record) (n : Nat)
    (hne : r.score.data ≠ []) (hdig : ∀ c ∈ r.score.data, c.isDigit = true)
    (hval : decimalValue r.score.data = n) (hbig : 2 ^ 64 ≤ n) :
    r.score? = none := by
  have hdot : r.score ≠ "." := by
    intro he
    have hmem : '.' ∈ r.score.data := by
      rw [he]
      decide
    exact absurd (hdig '.' hmem) (by decide)
  rw [Record.score?, if_neg hdot]
  cases hp : parseU64 r.score with
  | none => rfl
  | some m =>
    obtain ⟨ds, hds, -, hdsdig, hvds, hmlt⟩ := (parseU64_eq_some_iff _ m).mp hp
    rcases hds with hds | hds
    · rw [hds] at hval
      omega
    · have hplusmem : '+' ∈ r.score.data := by
        rw [hds]
        exact List.mem_cons_self '+' ds
      exact absurd (hdig '+' hplusmem) (by decide)

/-- C10 witness: the numeral for 2 ^ 64 itself (18446744073709551616) is out
of range, so the score accessor returns none. -/
theorem score_overflow_witness :
    (Record.mk "a" "b" "c" 1 2 "18446744073709551616" "+" "." []).score? = none :=
  score_overflow _ 18446744073709551616
    (by decide) (by decide) (by decide) (by decide)
